import Mathlib

/-!
Shallow embedding of `src/mma.js`: a decoder for Mathematica's `Compress`
output (the "!boR" format).

Modelling conventions:
* JavaScript strings are Lean `String` / `List Char`; `Uint8Array` buffers
  are `List Nat` whose entries are bytes (below 256).
* JS numbers used as offsets, lengths and counts are `Int` (they are always
  integral in the source).
* IEEE-754 doubles are represented by their 64-bit little-endian bit
  pattern as a `Nat`; `DataView.getFloat64` returning `0.0` corresponds to
  bit pattern `0`.
* The `while` loop of `Mma.Decode.Any` is embedded with explicit fuel (one
  unit per loop iteration and per recursive call); an `Option`-`none`
  result means the computation did not finish within the given fuel.  The
  `done` variable of the source is never assigned, so the loop guard is
  exactly `offset < bits.length && parts.length < maxParts`.
* Exceptions thrown by `Mma.Fail` become `Except.error`; the global
  diagnostic log `Mma.Messages` (only its warnings matter here) is threaded
  through results as a `List String`.
-/

namespace Mma

/-- A `Uint8Array` is modelled as a list of byte values. -/
abbrev Buffer := List Nat

/-- All entries of the buffer are bytes. -/
def validBuf (bits : Buffer) : Prop := ∀ b ∈ bits, b < 256

/-- JS indexing `bits[i]` on a typed array: `none` models `undefined`. -/
def jsIndex (bits : Buffer) (i : Int) : Option Nat :=
  if h : 0 ≤ i ∧ i.toNat < bits.length then some (bits.get ⟨i.toNat, h.2⟩)
  else none

/-- Clamp a relative index as `%TypedArray%.prototype.slice` does:
negative indices count from the end, and both ends clamp into range. -/
def jsSliceIndex (len : Nat) (i : Int) : Nat :=
  if i < 0 then (len + i).toNat else min i.toNat len

/-- Embeds `bits.slice(start, fin)` with full ECMAScript index semantics. -/
def jsSlice (bits : Buffer) (start fin : Int) : Buffer :=
  let a := jsSliceIndex bits.length start
  let b := jsSliceIndex bits.length fin
  (bits.drop a).take (b - a)

/-- Little-endian value of `k` bytes of `bits` starting at index `o`
(missing bytes read as 0, matching in-range `DataView` reads only). -/
def byteLE (bits : Buffer) (o : Nat) : Nat → Nat
  | 0 => 0
  | k + 1 => bits.getD o 0 + 256 * byteLE bits (o + 1) k

/-- A fragment of the JS value universe, just rich enough for the dynamic
checks performed by the constructors in `mma.js`.  `num none` is `NaN`. -/
inductive JSVal where
  | num (n : Option Int)
  | str (s : String)

/-- JS strict equality `===` on the fragment: `NaN` is not equal to
anything (including itself), and values of different types are unequal. -/
def jsStrictEq : JSVal → JSVal → Bool
  | .num (some a), .num (some b) => a == b
  | .str a, .str b => a == b
  | _, _ => false

/-- Embeds `Number(s)` for a one-character string `s`: digits convert to their
value, whitespace to `0`, and anything else to `NaN` (`none`). -/
def jsNumberOfChar (c : Char) : Option Int :=
  if c.isDigit then some ((c.toNat : Int) - 48)
  else if c = ' ' ∨ c = '\t' ∨ c = '\n' ∨ c = '\r' then some 0
  else none

/-- The seven core value types of `mma.js` (`Mma.IntegerMP` … through
`Mma.Expression`).  `RealMP` carries the 64-bit pattern of its double. -/
inductive Value where
  | IntegerMP (n : Int)
  | IntegerAP (nstring : String)
  | RealMP (n : Nat)
  | RealAP (nstring : String)
  | Symbol (name : String)
  | Str (str : String)
  | Expression (head : Value) (parts : List Value)

/-- Embeds `head instanceof Mma.Symbol`. -/
def Value.isSymbol : Value → Bool
  | .Symbol _ => true
  | _ => false

/-- Embeds `new Mma.IntegerAP(input)` for a string input.  The two validity
checks of the source are embedded verbatim: the non-digit check compares
`Number(input[i])` to `NaN` with `===`, and the leading-zero check compares
the one-character string `input[0]` to the number `0` with `===`. -/
def mkIntegerAP (input : String) : Except String Value :=
  if input.data.any (fun c => jsStrictEq (.num (jsNumberOfChar c)) (.num none)) then
    .error "IntegerAP: invalid input, contains non-digit"
  else if decide (1 < input.length) &&
      jsStrictEq (.str (String.mk (input.data.take 1))) (.num (some 0)) then
    .error "IntegerAP: input starts with 0"
  else
    .ok (Value.IntegerAP input)

/-- Embeds `new Mma.RealAP(input)` for a string input; only the leading-zero
check is performed, again comparing a string to the number `0`. -/
def mkRealAP (input : String) : Except String Value :=
  if decide (1 < input.length) &&
      jsStrictEq (.str (String.mk (input.data.take 1))) (.num (some 0)) then
    .error "RealAP: input starts with 0"
  else
    .ok (Value.RealAP input)

/-- Embeds `new Mma.Expression(head, parts)`: fails unless `head` is a `Symbol`.
`head` is an `Option` because the decoder may pass `parts[0]` of an empty
array, i.e. `undefined`. -/
def mkExpression (head : Option Value) (parts : List Value) : Except String Value :=
  match head with
  | some h =>
    if h.isSymbol then .ok (Value.Expression h parts)
    else .error "Expression: head must be an Mma.Symbol"
  | none => .error "Expression: head must be an Mma.Symbol"

namespace Decode

/-- Embeds `Mma.Decode.Int32`: the little-endian signed 32-bit integer at
`offset`; a `DataView` read that would go out of range (including a
negative offset) throws and is caught, yielding `0`. -/
def Int32 (bits : Buffer) (offset : Int) : Int :=
  if 0 ≤ offset ∧ offset + 4 ≤ (bits.length : Int) then
    let u := byteLE bits offset.toNat 4
    if u < 2147483648 then (u : Int) else (u : Int) - 4294967296
  else 0

/-- Embeds `Mma.Decode.Float64`: the 64-bit little-endian pattern at `offset`
(bit pattern of the double the source returns); out-of-range reads yield
`0`, the pattern of `0.0`. -/
def Float64 (bits : Buffer) (offset : Int) : Nat :=
  if 0 ≤ offset ∧ offset + 8 ≤ (bits.length : Int) then byteLE bits offset.toNat 8
  else 0

/-- Embeds `Mma.Decode.String`: `U8ArrayToString(bits.slice(offset, offset +
length))`, each byte becoming one character. -/
def DecodeString (bits : Buffer) (offset length : Int) : String :=
  String.mk ((jsSlice bits offset (offset + length)).map Char.ofNat)

/-- Result of `Mma.Decode.StringEntry`. -/
structure StringEntryResult where
  length : Int
  string : String
  bytesRead : Int
deriving DecidableEq

/-- Embeds `Mma.Decode.StringEntry`: a 4-byte little-endian length followed by
that many bytes of string data; `bytesRead = length + 4` even when the
length field is negative. -/
def StringEntry (bits : Buffer) (offset : Int) : StringEntryResult :=
  let length := Int32 bits offset
  { length := length
    string := DecodeString bits (offset + 4) length
    bytesRead := length + 4 }

/-- The state constants of the `Mma.Decode.Any` state machine. -/
inductive DState where
  | READY | INTEGER_MP | INTEGER_AP | REAL_MP | REAL_AP
  | SYMBOL | STRING | EXPRESSION | REAL_MATRIX
deriving DecidableEq

/-- The loop guard conjunct `parts.length < maxParts`; `none` is the
default `Infinity` bound of a top-level call. -/
def partsOk (n : Nat) (maxParts : Option Int) : Bool :=
  match maxParts with
  | none => true
  | some k => decide ((n : Int) < k)

/-- The `switch (String.fromCharCode(next_type))` dispatch of the READY
state; `none` is the unknown-tag default case.  `String.fromCharCode` of
`undefined` is `"\u0000"`, hence the `getD 0`. -/
def tagState (b : Option Nat) : Option DState :=
  match Char.ofNat (b.getD 0) with
  | 'i' => some .INTEGER_MP
  | 'I' => some .INTEGER_AP
  | 'r' => some .REAL_MP
  | 'R' => some .REAL_AP
  | 's' => some .SYMBOL
  | 'S' => some .STRING
  | 'f' => some .EXPRESSION
  | 'e' => some .REAL_MATRIX
  | _ => none

/-- The `Mma.Warn` text emitted for an unknown tag byte. -/
def readyWarning (b : Option Nat) (offset : Int) : String :=
  "Decode.Any (READY): byte " ++
    (match b with | some n => toString n | none => "undefined") ++
    " (" ++ String.mk [Char.ofNat (b.getD 0)] ++ ") at offset " ++
    toString offset ++ " is not a known type signature"

/-- The `sizes` read loop of the REAL_MATRIX case: `n` consecutive
little-endian 32-bit integers starting at `offset`. -/
def readSizes (bits : Buffer) (offset : Int) : Nat → List Int
  | 0 => []
  | k + 1 => Int32 bits offset :: readSizes bits (offset + 4) k

/-- JS indexing `sizes[i]` on an array of numbers. -/
def jsIndexInt (xs : List Int) (i : Int) : Option Int :=
  if h : 0 ≤ i ∧ i.toNat < xs.length then some (xs.get ⟨i.toNat, h.2⟩)
  else none

/-- Number of iterations of a `for (i = 0; i < sizes[idx]; i++)` loop:
zero when `sizes[idx]` is `undefined` or not positive. -/
def loopCount (sizes : List Int) (idx : Int) : Nat :=
  match jsIndexInt sizes idx with
  | none => 0
  | some c => c.toNat

/-- The level-0 float read loop of `ParseMatrixAtLevel`: `count`
consecutive 8-byte doubles wrapped as `RealMP`. -/
def readFloats (bits : Buffer) (offset : Int) : Nat → List Value
  | 0 => []
  | k + 1 => Value.RealMP (Float64 bits offset) :: readFloats bits (offset + 8) k

/-- The inner `for` loop of `ParseMatrixAtLevel` at a level above 0:
`count` iterations of the one-level-down decoder `f`, each advancing the
offset by the bytes the previous iteration consumed; returns the
collected list and the total bytes read. -/
def matrixRow (f : Int → Value × Int) (offset : Int) : Nat → List Value × Int
  | 0 => ([], 0)
  | i + 1 =>
    let p := f offset
    let rest := matrixRow f (offset + p.2) i
    (p.1 :: rest.1, p.2 + rest.2)

/-- Embeds `ParseMatrixAtLevel(bits, offset, sizes, level)` from the REAL_MATRIX
case, returning the built expression and `bytesRead`.  Level 0 reads
`sizes[sizes.length - 1]` floats; level `l + 1` builds
`sizes[sizes.length - level - 1]` sub-lists.  (For the non-positive `n`
of a malformed matrix the source reaches negative levels whose loops run
zero times and build `List[]`, which is the level-0 result on the then
necessarily empty `sizes`; the clamped `Nat` level used here agrees.) -/
def ParseMatrixAtLevel (bits : Buffer) (sizes : List Int) : Nat → Int → Value × Int
  | 0, offset =>
    let cnt := loopCount sizes ((sizes.length : Int) - 1)
    (Value.Expression (Value.Symbol "List") (readFloats bits offset cnt), 8 * (cnt : Int))
  | l + 1, offset =>
    let cnt := loopCount sizes ((sizes.length : Int) - ((l : Int) + 1) - 1)
    let row := matrixRow (fun o2 => ParseMatrixAtLevel bits sizes l o2) offset cnt
    (Value.Expression (Value.Symbol "List") row.1, row.2)

/-- The `while` loop of `Mma.Decode.Any`, one fuel unit per iteration.
Arguments mirror the loop state: the machine state, current `offset`, the
`parts` accumulated so far, the warnings logged so far, and `maxParts`.
Returns the final offset, parts and warnings, an `Except.error` for an
exception thrown by `Mma.Fail`, or `none` when fuel runs out. -/
def AnyLoop (fuel : Nat) (bits : Buffer) (state : DState) (offset : Int)
    (parts : List Value) (warnings : List String) (maxParts : Option Int) :
    Option (Except String (Int × List Value × List String)) :=
  match fuel with
  | 0 => none
  | fuel' + 1 =>
    if offset < (bits.length : Int) ∧ partsOk parts.length maxParts = true then
      match state with
      | .READY =>
        match tagState (jsIndex bits offset) with
        | some st => AnyLoop fuel' bits st (offset + 1) parts warnings maxParts
        | none =>
          AnyLoop fuel' bits .READY (offset + 1) parts
            (warnings ++ [readyWarning (jsIndex bits offset) offset]) maxParts
      | .INTEGER_MP =>
        let int := Int32 bits offset
        AnyLoop fuel' bits .READY (offset + 4)
          (parts ++ [Value.IntegerMP int]) warnings maxParts
      | .INTEGER_AP =>
        let se := StringEntry bits offset
        match mkIntegerAP se.string with
        | .error e => some (.error e)
        | .ok v =>
          AnyLoop fuel' bits .READY (offset + se.bytesRead)
            (parts ++ [v]) warnings maxParts
      | .REAL_MP =>
        let float := Float64 bits offset
        AnyLoop fuel' bits .READY (offset + 8)
          (parts ++ [Value.RealMP float]) warnings maxParts
      | .REAL_AP =>
        let se := StringEntry bits offset
        match mkRealAP se.string with
        | .error e => some (.error e)
        | .ok v =>
          AnyLoop fuel' bits .READY (offset + se.bytesRead)
            (parts ++ [v]) warnings maxParts
      | .SYMBOL =>
        let se := StringEntry bits offset
        AnyLoop fuel' bits .READY (offset + se.bytesRead)
          (parts ++ [Value.Symbol se.string]) warnings maxParts
      | .STRING =>
        let se := StringEntry bits offset
        AnyLoop fuel' bits .READY (offset + se.bytesRead)
          (parts ++ [Value.Str se.string]) warnings maxParts
      | .EXPRESSION =>
        let exprPartCount := Int32 bits offset
        match AnyLoop fuel' bits .READY (offset + 4) [] []
            (some (exprPartCount + 1)) with
        | none => none
        | some (.error e) => some (.error e)
        | some (.ok (endOffset, subParts, subWarnings)) =>
          match mkExpression subParts.head? (subParts.drop 1) with
          | .error e => some (.error e)
          | .ok v =>
            AnyLoop fuel' bits .READY endOffset (parts ++ [v])
              (warnings ++ subWarnings) maxParts
      | .REAL_MATRIX =>
        let n := Int32 bits offset
        let sizes := readSizes bits (offset + 4) n.toNat
        let dataOffset := offset + 4 + 4 * (n.toNat : Int)
        let pm := ParseMatrixAtLevel bits sizes (n - 1).toNat dataOffset
        AnyLoop fuel' bits .READY (dataOffset + pm.2)
          (parts ++ [pm.1]) warnings maxParts
    else
      some (.ok (offset, parts, warnings))

/-- Result record of `Mma.Decode.Any`: the decoded parts, the number of
bytes consumed, and the warnings logged during the call. -/
structure AnyResult where
  parts : List Value
  bytesRead : Int
  warnings : List String

/-- Embeds `Mma.Decode.Any(bits, offset, maxParts)`: run the state machine from
READY with no parts accumulated; `bytesRead` is the final offset minus the
original one.  The EXPRESSION case of `AnyLoop` is exactly this function
applied at the sub-call's offset and `partCount + 1` bound. -/
def Any (fuel : Nat) (bits : Buffer) (offset : Int) (maxParts : Option Int) :
    Option (Except String AnyResult) :=
  match AnyLoop fuel bits .READY offset [] [] maxParts with
  | none => none
  | some (.error e) => some (.error e)
  | some (.ok (endOffset, parts, warnings)) =>
    some (.ok { parts := parts, bytesRead := endOffset - offset, warnings := warnings })

end Decode

namespace Util

/-- Embeds `Mma.Util.DeleteCharAt`: `string.substr(0, pos) + string.substr(pos + 1)`. -/
def DeleteCharAt (s : List Char) (pos : Nat) : List Char :=
  s.take pos ++ s.drop (pos + 1)

end Util

/-- The characters deleted by the clean-up scan of `Mma.Decompress`:
backslash, newline and double quote. -/
def isStripped (c : Char) : Bool :=
  c == '\\' || c == '\n' || c == '"'

/-- The clean-up `for` loop of `Mma.Decompress`: delete every offending
character, decrementing `i` after a deletion so the same index is
re-examined (hence runs of offending characters are all removed). -/
def stripLoop (s : List Char) (i : Nat) : List Char :=
  if h : i < s.length then
    if isStripped (s.get ⟨i, h⟩) then stripLoop (Util.DeleteCharAt s i) i
    else stripLoop s (i + 1)
  else s
termination_by s.length - i
decreasing_by
  all_goals simp [Util.DeleteCharAt]
  all_goals omega

/-- Whitespace removed by `String.prototype.trim`. -/
def isJsSpace (c : Char) : Bool :=
  c == ' ' || c == '\t' || c == '\n' || c == '\r' ||
  c == '\x0b' || c == '\x0c'

/-- Embeds `s.trim()`: strip leading and trailing whitespace. -/
def jsTrim (s : List Char) : List Char :=
  ((s.dropWhile isJsSpace).reverse.dropWhile isJsSpace).reverse

/-- Embeds `Mma.Decompress`, with `atob`-based base64 decoding and pako's
`inflate` abstracted as function parameters (`none` models the exception
each throws on malformed input, which aborts the decode).  Returns the
inflated buffer with its 4-byte header stripped, plus the warnings logged
(a header-marker mismatch only warns). -/
def Decompress (atobDecode : List Char → Option Buffer)
    (inflate : Buffer → Option Buffer) (input : List Char) :
    Except String (Buffer × List String) :=
  let cleaned := stripLoop input 0
  let b64EncodedData := (jsTrim cleaned).drop 2
  match atobDecode b64EncodedData with
  | none => .error "Base64Decode: invalid input"
  | some bitsCompressed =>
    match inflate bitsCompressed with
    | none => .error "inflate: invalid input"
    | some bits =>
      let headerString := String.mk ((bits.take 4).map Char.ofNat)
      let warnings :=
        if headerString ≠ "!boR" then
          ["Decompress: unknown header string " ++ headerString ++ " (expected !boR)"]
        else []
      .ok (bits.drop 4, warnings)

mutual

/-- Every `Expression` node of the value has a `Symbol` head. -/
def headsOk : Value → Bool
  | .Expression h parts => h.isSymbol && headsOkList parts
  | _ => true

/-- Extends `headsOk` over every value of a list. -/
def headsOkList : List Value → Bool
  | [] => true
  | v :: vs => headsOk v && headsOkList vs

end

/-- A value is an `n`-deep nesting of `Expression (Symbol "List") …`
nodes whose level widths follow `dims`, with `RealMP` leaves. -/
def matrixShape : List Nat → Value → Prop
  | [], v => ∃ b, v = Value.RealMP b
  | d :: ds, v =>
    ∃ l, v = Value.Expression (Value.Symbol "List") l ∧ l.length = d ∧
      ∀ x ∈ l, matrixShape ds x

/-- An `f` tag with `partCount = 0` followed by one symbol entry
(`s`, length 3, `"abc"`). -/
def exprBuf : Buffer := [102, 0, 0, 0, 0, 115, 3, 0, 0, 0, 97, 98, 99]

/-- An `e` tag with `n = 2`, `sizes = [2, 3]`, followed by the doubles
`1.0 … 6.0` in little-endian IEEE-754. -/
def matrixBuf : Buffer :=
  [101, 2, 0, 0, 0, 2, 0, 0, 0, 3, 0, 0, 0,
   0, 0, 0, 0, 0, 0, 0xF0, 0x3F,
   0, 0, 0, 0, 0, 0, 0, 0x40,
   0, 0, 0, 0, 0, 0, 0x08, 0x40,
   0, 0, 0, 0, 0, 0, 0x10, 0x40,
   0, 0, 0, 0, 0, 0, 0x14, 0x40,
   0, 0, 0, 0, 0, 0, 0x18, 0x40]

/-- One unknown tag byte (255) followed by a well-formed `i` entry. -/
def skipBuf : Buffer := [255, 105, 1, 0, 0, 0]

/-- Two well-formed `i` entries (values 1 and 2). -/
def boundBuf : Buffer := [105, 1, 0, 0, 0, 105, 2, 0, 0, 0]

/-- Eight distinct bytes, for exercising the primitive readers. -/
def bytesBuf : Buffer := [1, 2, 3, 4, 5, 6, 7, 8]

/-- An expression entry whose decode exercises the head invariant. -/
def headBuf : Buffer := [102, 0, 0, 0, 0, 115, 3, 0, 0, 0, 97, 98, 99]

/-- An `I` tag whose 4-byte length field is -5, so the string entry
consumes -1 bytes and the offset returns to 0: the source loops forever
on this buffer. -/
def loopBuf : Buffer := [73, 251, 255, 255, 255]

/-- A buffer whose single byte is the recognized tag `i`. -/
def loneTagBuf : Buffer := [105]

end Mma

/-! ## Helper lemmas -/

namespace Mma

theorem jsStrictEq_nan_right (v : JSVal) : jsStrictEq v (.num none) = false := by
  rcases v with n | s
  · rcases n with _ | a <;> rfl
  · rfl

theorem jsStrictEq_str_num (s : String) (n : Option Int) :
    jsStrictEq (.str s) (.num n) = false := by
  rcases n with _ | a <;> rfl

theorem mkIntegerAP_ok (s : String) : mkIntegerAP s = .ok (Value.IntegerAP s) := by
  unfold mkIntegerAP
  simp [jsStrictEq_nan_right, jsStrictEq_str_num]

theorem mkRealAP_ok (s : String) : mkRealAP s = .ok (Value.RealAP s) := by
  unfold mkRealAP
  simp [jsStrictEq_str_num]

theorem jsIndex_bounds {bits : Buffer} {i : Int} {b : Nat}
    (h : jsIndex bits i = some b) : 0 ≤ i ∧ i < (bits.length : Int) := by
  unfold jsIndex at h
  split at h
  · next hcond => omega
  · exact absurd h (by simp)

end Mma

/-! ## Claim C1: IntegerAP input validation -/

namespace Mma

/-- C1.  The claim says `IntegerAP` construction is fatal on a non-digit
character or a leading zero, with `IntegerAP("007")` failing.  In the
source both checks are dead code — `Number(input[i]) === NaN` is always
false because `NaN` is strictly equal to nothing, and `input[0] === 0`
compares a one-character string to the number `0` — so the constructor
accepts every string, including `"007"` and strings with non-digits. -/
theorem integerAP_validation_dead :
    mkIntegerAP "007" = .ok (Value.IntegerAP "007") ∧
    mkIntegerAP "x!" = .ok (Value.IntegerAP "x!") ∧
    mkRealAP "0123" = .ok (Value.RealAP "0123") ∧
    ∀ s : String, mkIntegerAP s = .ok (Value.IntegerAP s) :=
  ⟨mkIntegerAP_ok "007", mkIntegerAP_ok "x!", mkRealAP_ok "0123", mkIntegerAP_ok⟩

end Mma

/-! ## Claim C9: termination of the sequence decoder -/

namespace Mma

theorem anyLoop_loopBuf (fuel : Nat) :
    (∀ parts warnings,
      Decode.AnyLoop fuel loopBuf .READY 0 parts warnings none = none) ∧
    (∀ parts warnings,
      Decode.AnyLoop fuel loopBuf .INTEGER_AP 1 parts warnings none = none) := by
  induction fuel with
  | zero => exact ⟨fun _ _ => rfl, fun _ _ => rfl⟩
  | succ fuel ih =>
    constructor
    · intro parts warnings
      have hstep : Decode.AnyLoop (fuel + 1) loopBuf .READY 0 parts warnings none =
          Decode.AnyLoop fuel loopBuf .INTEGER_AP 1 parts warnings none := rfl
      rw [hstep]
      exact ih.2 parts warnings
    · intro parts warnings
      have hstep : Decode.AnyLoop (fuel + 1) loopBuf .INTEGER_AP 1 parts warnings none =
          Decode.AnyLoop fuel loopBuf .READY 0
            (parts ++ [Value.IntegerAP ""]) warnings none := rfl
      rw [hstep]
      exact ih.1 _ warnings

/-- C9.  The claim says `Decode.Any` terminates on every buffer, offset
and `maxCount`, in particular when a string entry's length field is
negative.  It does not: on `loopBuf` (`'I'` followed by the little-endian
int32 `-5`) each cycle consumes the tag byte and then adds
`bytesRead = -5 + 4 = -1`, so the offset returns to 0 while `parts` grows,
and with the default unbounded `maxParts` the loop never exits: no amount
of fuel makes the embedded decoder return. -/
theorem decode_any_diverges : ∀ fuel : Nat, Decode.Any fuel loopBuf 0 none = none := by
  intro fuel
  unfold Decode.Any
  rw [(anyLoop_loopBuf fuel).1 [] []]

end Mma

/-! ## Claims C4 and C10: unknown tags and a trailing tag byte -/

namespace Mma

/-- C4.  An unrecognized tag byte makes the READY state log one warning,
consume exactly the one tag byte, and continue decoding from the next
byte in the READY state — no abort.  In particular `skipBuf` (one unknown
byte, then a well-formed `i` entry) decodes to exactly one `IntegerMP`
with one logged warning. -/
theorem unknown_tag_skipped :
    (∀ (fuel : Nat) (bits : Buffer) (offset : Int) (b : Nat)
        (parts : List Value) (warnings : List String) (maxParts : Option Int),
      jsIndex bits offset = some b →
      Decode.tagState (some b) = none →
      Decode.partsOk parts.length maxParts = true →
      Decode.AnyLoop (fuel + 1) bits .READY offset parts warnings maxParts =
        Decode.AnyLoop fuel bits .READY (offset + 1) parts
          (warnings ++ [Decode.readyWarning (some b) offset]) maxParts) ∧
    Decode.Any 20 skipBuf 0 none =
      some (.ok { parts := [Value.IntegerMP 1], bytesRead := 6,
                  warnings := [Decode.readyWarning (some 255) 0] }) := by
  constructor
  · intro fuel bits offset b parts warnings maxParts hidx htag hpk
    have hb := jsIndex_bounds hidx
    simp only [Decode.AnyLoop]
    rw [if_pos ⟨hb.2, hpk⟩, hidx, htag]
  · rfl

/-- C10.  When a recognized tag byte is the final byte of the buffer, the
loop guard is re-checked after the tag byte is consumed and before any
payload is read, so the decoder returns without appending a value for
that tag.  In particular a buffer holding only `i` decodes to no parts. -/
theorem final_tag_appends_nothing :
    (∀ (fuel : Nat) (bits : Buffer) (offset : Int) (b : Nat) (st : Decode.DState)
        (parts : List Value) (warnings : List String) (maxParts : Option Int),
      jsIndex bits offset = some b →
      Decode.tagState (some b) = some st →
      (bits.length : Int) = offset + 1 →
      Decode.partsOk parts.length maxParts = true →
      Decode.AnyLoop (fuel + 2) bits .READY offset parts warnings maxParts =
        some (.ok (offset + 1, parts, warnings))) ∧
    Decode.Any 20 loneTagBuf 0 none =
      some (.ok { parts := [], bytesRead := 1, warnings := [] }) := by
  constructor
  · intro fuel bits offset b st parts warnings maxParts hidx htag hlen hpk
    have hb := jsIndex_bounds hidx
    have h1 : Decode.AnyLoop (fuel + 2) bits .READY offset parts warnings maxParts =
        Decode.AnyLoop (fuel + 1) bits st (offset + 1) parts warnings maxParts := by
      simp only [Decode.AnyLoop]
      rw [if_pos ⟨hb.2, hpk⟩, hidx, htag]
    rw [h1]
    simp only [Decode.AnyLoop]
    rw [if_neg]
    intro hcon
    omega
  · rfl

end Mma

namespace Mma

/-- Witness for `unknown_tag_skipped`: the step at offset 0 of `skipBuf`,
whose byte 255 is no known tag. -/
theorem unknown_tag_skipped_witness :
    Decode.AnyLoop 20 skipBuf .READY 0 [] [] none =
      Decode.AnyLoop 19 skipBuf .READY 1 []
        [Decode.readyWarning (some 255) 0] none :=
  unknown_tag_skipped.1 19 skipBuf 0 255 [] [] none rfl rfl rfl

/-- Witness for `final_tag_appends_nothing`: the tag `i` as the only byte
of `loneTagBuf`. -/
theorem final_tag_appends_nothing_witness :
    Decode.AnyLoop 20 loneTagBuf .READY 0 [] [] none = some (.ok (1, [], [])) :=
  final_tag_appends_nothing.1 18 loneTagBuf 0 105 .INTEGER_MP [] [] none rfl rfl rfl rfl

end Mma

/-! ## Claim C2: the expression tag -/

namespace Mma

/-- C2.  At a byte `'f'` (102) the decoder reads the 4-byte little-endian
`partCount` just past the tag, recursively invokes `Decode.Any` at the
offset just past that count requesting exactly `partCount + 1` values,
takes the first returned value as head and the rest as parts in order,
and continues at the offset advanced by exactly the bytes the recursive
call consumed.  In particular `exprBuf` (tag `f`, `partCount = 0`, one
symbol entry `"abc"`) decodes to `Expression(Symbol "abc", [])`. -/
theorem expression_tag_decodes :
    (∀ (fuel : Nat) (bits : Buffer) (offset : Int)
        (parts : List Value) (warnings : List String) (maxParts : Option Int),
      jsIndex bits offset = some 102 →
      offset + 1 < (bits.length : Int) →
      Decode.partsOk parts.length maxParts = true →
      Decode.AnyLoop (fuel + 2) bits .READY offset parts warnings maxParts =
        match Decode.Any fuel bits (offset + 1 + 4)
            (some (Decode.Int32 bits (offset + 1) + 1)) with
        | none => none
        | some (.error e) => some (.error e)
        | some (.ok res) =>
          match mkExpression res.parts.head? (res.parts.drop 1) with
          | .error e => some (.error e)
          | .ok v =>
            Decode.AnyLoop fuel bits .READY (offset + 1 + 4 + res.bytesRead)
              (parts ++ [v]) (warnings ++ res.warnings) maxParts) ∧
    Decode.Any 20 exprBuf 0 none =
      some (.ok { parts := [Value.Expression (Value.Symbol "abc") []],
                  bytesRead := 13, warnings := [] }) := by
  constructor
  · intro fuel bits offset parts warnings maxParts hidx hlt hpk
    have hb := jsIndex_bounds hidx
    have h1 : Decode.AnyLoop (fuel + 2) bits .READY offset parts warnings maxParts =
        Decode.AnyLoop (fuel + 1) bits .EXPRESSION (offset + 1) parts warnings maxParts := by
      simp only [Decode.AnyLoop]
      rw [if_pos ⟨hb.2, hpk⟩, hidx]
      rfl
    rw [h1]
    cases hsub : Decode.AnyLoop fuel bits .READY (offset + 1 + 4) [] []
        (some (Decode.Int32 bits (offset + 1) + 1)) with
    | none =>
      have h2 : Decode.AnyLoop (fuel + 1) bits .EXPRESSION (offset + 1)
          parts warnings maxParts = none := by
        simp only [Decode.AnyLoop]
        rw [if_pos ⟨hlt, hpk⟩, hsub]
      rw [h2]
      simp only [Decode.Any, hsub]
    | some r =>
      cases r with
      | error e =>
        have h2 : Decode.AnyLoop (fuel + 1) bits .EXPRESSION (offset + 1)
            parts warnings maxParts = some (.error e) := by
          simp only [Decode.AnyLoop]
          rw [if_pos ⟨hlt, hpk⟩, hsub]
        rw [h2]
        simp only [Decode.Any, hsub]
      | ok triple =>
        obtain ⟨endOffset, subParts, subWarnings⟩ := triple
        have h2 : Decode.AnyLoop (fuel + 1) bits .EXPRESSION (offset + 1)
            parts warnings maxParts =
            match mkExpression subParts.head? (subParts.drop 1) with
            | .error e => some (.error e)
            | .ok v =>
              Decode.AnyLoop fuel bits .READY endOffset (parts ++ [v])
                (warnings ++ subWarnings) maxParts := by
          simp only [Decode.AnyLoop]
          rw [if_pos ⟨hlt, hpk⟩, hsub]
        rw [h2]
        have harith : offset + 1 + 4 + (endOffset - (offset + 1 + 4)) = endOffset := by
          ring
        simp only [Decode.Any, hsub, harith]
  · rfl

end Mma

/-! ## One-step unfolding of the decode loop -/

namespace Mma

/-- One iteration of `Decode.AnyLoop`, with the `let`s of the definition
inlined: the standard unfolding lemma used by the inductive proofs. -/
theorem anyLoop_succ_eq (fuel : Nat) (bits : Buffer) (st : Decode.DState)
    (offset : Int) (parts : List Value) (warnings : List String)
    (maxParts : Option Int) :
    Decode.AnyLoop (fuel + 1) bits st offset parts warnings maxParts =
      if offset < (bits.length : Int) ∧ Decode.partsOk parts.length maxParts = true then
        match st with
        | .READY =>
          match Decode.tagState (jsIndex bits offset) with
          | some st2 => Decode.AnyLoop fuel bits st2 (offset + 1) parts warnings maxParts
          | none =>
            Decode.AnyLoop fuel bits .READY (offset + 1) parts
              (warnings ++ [Decode.readyWarning (jsIndex bits offset) offset]) maxParts
        | .INTEGER_MP =>
          Decode.AnyLoop fuel bits .READY (offset + 4)
            (parts ++ [Value.IntegerMP (Decode.Int32 bits offset)]) warnings maxParts
        | .INTEGER_AP =>
          match mkIntegerAP (Decode.StringEntry bits offset).string with
          | .error e => some (.error e)
          | .ok v =>
            Decode.AnyLoop fuel bits .READY
              (offset + (Decode.StringEntry bits offset).bytesRead)
              (parts ++ [v]) warnings maxParts
        | .REAL_MP =>
          Decode.AnyLoop fuel bits .READY (offset + 8)
            (parts ++ [Value.RealMP (Decode.Float64 bits offset)]) warnings maxParts
        | .REAL_AP =>
          match mkRealAP (Decode.StringEntry bits offset).string with
          | .error e => some (.error e)
          | .ok v =>
            Decode.AnyLoop fuel bits .READY
              (offset + (Decode.StringEntry bits offset).bytesRead)
              (parts ++ [v]) warnings maxParts
        | .SYMBOL =>
          Decode.AnyLoop fuel bits .READY
            (offset + (Decode.StringEntry bits offset).bytesRead)
            (parts ++ [Value.Symbol (Decode.StringEntry bits offset).string])
            warnings maxParts
        | .STRING =>
          Decode.AnyLoop fuel bits .READY
            (offset + (Decode.StringEntry bits offset).bytesRead)
            (parts ++ [Value.Str (Decode.StringEntry bits offset).string])
            warnings maxParts
        | .EXPRESSION =>
          match Decode.AnyLoop fuel bits .READY (offset + 4) [] []
              (some (Decode.Int32 bits offset + 1)) with
          | none => none
          | some (.error e) => some (.error e)
          | some (.ok (endOffset, subParts, subWarnings)) =>
            match mkExpression subParts.head? (subParts.drop 1) with
            | .error e => some (.error e)
            | .ok v =>
              Decode.AnyLoop fuel bits .READY endOffset (parts ++ [v])
                (warnings ++ subWarnings) maxParts
        | .REAL_MATRIX =>
          Decode.AnyLoop fuel bits .READY
            (offset + 4 + 4 * ((Decode.Int32 bits offset).toNat : Int) +
              (Decode.ParseMatrixAtLevel bits
                (Decode.readSizes bits (offset + 4) (Decode.Int32 bits offset).toNat)
                (Decode.Int32 bits offset - 1).toNat
                (offset + 4 + 4 * ((Decode.Int32 bits offset).toNat : Int))).2)
            (parts ++ [(Decode.ParseMatrixAtLevel bits
                (Decode.readSizes bits (offset + 4) (Decode.Int32 bits offset).toNat)
                (Decode.Int32 bits offset - 1).toNat
                (offset + 4 + 4 * ((Decode.Int32 bits offset).toNat : Int))).1])
            warnings maxParts
      else some (.ok (offset, parts, warnings)) := rfl

/-- When `Decode.AnyLoop` returns normally, the loop guard has failed:
either the buffer was exhausted or the `maxParts` bound was reached. -/
theorem anyLoop_exit (bits : Buffer) :
    ∀ (fuel : Nat) (st : Decode.DState) (offset : Int) (parts : List Value)
      (warnings : List String) (maxParts : Option Int)
      (endOffset : Int) (parts' : List Value) (warnings' : List String),
      Decode.AnyLoop fuel bits st offset parts warnings maxParts =
        some (.ok (endOffset, parts', warnings')) →
      (bits.length : Int) ≤ endOffset ∨
        Decode.partsOk parts'.length maxParts = false := by
  intro fuel
  induction fuel with
  | zero =>
    intro st offset parts warnings maxParts endOffset parts' warnings' h
    exact Option.noConfusion h
  | succ fuel ih =>
    intro st offset parts warnings maxParts endOffset parts' warnings' h
    rw [anyLoop_succ_eq] at h
    by_cases hg : offset < (bits.length : Int) ∧
        Decode.partsOk parts.length maxParts = true
    · rw [if_pos hg] at h
      cases st with
      | READY =>
        rcases htag : Decode.tagState (jsIndex bits offset) with _ | st2 <;>
          simp only [htag] at h
        · exact ih _ _ _ _ _ _ _ _ h
        · exact ih _ _ _ _ _ _ _ _ h
      | INTEGER_MP => exact ih _ _ _ _ _ _ _ _ h
      | INTEGER_AP =>
        simp only [mkIntegerAP_ok] at h
        exact ih _ _ _ _ _ _ _ _ h
      | REAL_MP => exact ih _ _ _ _ _ _ _ _ h
      | REAL_AP =>
        simp only [mkRealAP_ok] at h
        exact ih _ _ _ _ _ _ _ _ h
      | SYMBOL => exact ih _ _ _ _ _ _ _ _ h
      | STRING => exact ih _ _ _ _ _ _ _ _ h
      | EXPRESSION =>
        rcases hsub : Decode.AnyLoop fuel bits .READY (offset + 4) [] []
            (some (Decode.Int32 bits offset + 1)) with _ | r
        · simp only [hsub] at h
          exact Option.noConfusion h
        · cases r with
          | error e =>
            simp only [hsub] at h
            exact Except.noConfusion (Option.some.inj h)
          | ok triple =>
            obtain ⟨e2, sp, sw⟩ := triple
            simp only [hsub] at h
            rcases hmk : mkExpression sp.head? (sp.drop 1) with e | v
            · simp only [hmk] at h
              exact Except.noConfusion (Option.some.inj h)
            · simp only [hmk] at h
              exact ih _ _ _ _ _ _ _ _ h
      | REAL_MATRIX => exact ih _ _ _ _ _ _ _ _ h
    · rw [if_neg hg] at h
      simp only [Option.some.injEq, Except.ok.injEq, Prod.mk.injEq] at h
      obtain ⟨h1, h2, h3⟩ := h
      rw [not_and_or] at hg
      rcases hg with hg | hg
      · left; omega
      · right
        rw [← h2]
        exact Bool.not_eq_true _ |>.mp hg

end Mma

namespace Mma

/-- With a finite `maxParts` bound `k`, the loop never accumulates more
than `max parts.length k.toNat` values. -/
theorem anyLoop_parts_bound (bits : Buffer) (k : Int) :
    ∀ (fuel : Nat) (st : Decode.DState) (offset : Int) (parts : List Value)
      (warnings : List String) (endOffset : Int) (parts' : List Value)
      (warnings' : List String),
      Decode.AnyLoop fuel bits st offset parts warnings (some k) =
        some (.ok (endOffset, parts', warnings')) →
      parts'.length ≤ max parts.length k.toNat := by
  intro fuel
  induction fuel with
  | zero =>
    intro st offset parts warnings endOffset parts' warnings' h
    exact Option.noConfusion h
  | succ fuel ih =>
    intro st offset parts warnings endOffset parts' warnings' h
    rw [anyLoop_succ_eq] at h
    by_cases hg : offset < (bits.length : Int) ∧
        Decode.partsOk parts.length (some k) = true
    · have hlt : (parts.length : Int) < k := by
        simpa [Decode.partsOk] using hg.2
      rw [if_pos hg] at h
      have step : ∀ (st2 : Decode.DState) (off2 : Int) (v : Value) (w2 : List String),
          Decode.AnyLoop fuel bits st2 off2 (parts ++ [v]) w2 (some k) =
            some (.ok (endOffset, parts', warnings')) →
          parts'.length ≤ max parts.length k.toNat := by
        intro st2 off2 v w2 hh
        have hb := ih st2 off2 (parts ++ [v]) w2 endOffset parts' warnings' hh
        simp only [List.length_append, List.length_cons, List.length_nil] at hb
        omega
      cases st with
      | READY =>
        rcases htag : Decode.tagState (jsIndex bits offset) with _ | st2 <;>
          simp only [htag] at h
        · have hb := ih _ _ _ _ _ _ _ h
          omega
        · have hb := ih _ _ _ _ _ _ _ h
          omega
      | INTEGER_MP => exact step _ _ _ _ h
      | INTEGER_AP =>
        simp only [mkIntegerAP_ok] at h
        exact step _ _ _ _ h
      | REAL_MP => exact step _ _ _ _ h
      | REAL_AP =>
        simp only [mkRealAP_ok] at h
        exact step _ _ _ _ h
      | SYMBOL => exact step _ _ _ _ h
      | STRING => exact step _ _ _ _ h
      | EXPRESSION =>
        rcases hsub : Decode.AnyLoop fuel bits .READY (offset + 4) [] []
            (some (Decode.Int32 bits offset + 1)) with _ | r
        · simp only [hsub] at h
          exact Option.noConfusion h
        · cases r with
          | error e =>
            simp only [hsub] at h
            exact Except.noConfusion (Option.some.inj h)
          | ok triple =>
            obtain ⟨e2, sp, sw⟩ := triple
            simp only [hsub] at h
            rcases hmk : mkExpression sp.head? (sp.drop 1) with e | v
            · simp only [hmk] at h
              exact Except.noConfusion (Option.some.inj h)
            · simp only [hmk] at h
              exact step _ _ _ _ h
      | REAL_MATRIX => exact step _ _ _ _ h
    · rw [if_neg hg] at h
      simp only [Option.some.injEq, Except.ok.injEq, Prod.mk.injEq] at h
      obtain ⟨h1, h2, h3⟩ := h
      rw [← h2]
      exact le_max_left _ _

/-- C5.  The sequence decoder stops exactly when the buffer is exhausted
or `maxCount` values have been produced: a finite bound `k` is never
exceeded, and whenever a call returns normally either the final offset
has reached the end of the buffer or the bound has been reached; an
unbounded call stops only by exhausting the buffer. -/
theorem decode_stops_at_maxParts :
    (∀ (fuel : Nat) (bits : Buffer) (offset : Int) (k : Int)
        (res : Decode.AnyResult),
      Decode.Any fuel bits offset (some k) = some (.ok res) →
      res.parts.length ≤ k.toNat ∧
        ((bits.length : Int) ≤ offset + res.bytesRead ∨
          k ≤ (res.parts.length : Int))) ∧
    (∀ (fuel : Nat) (bits : Buffer) (offset : Int) (res : Decode.AnyResult),
      Decode.Any fuel bits offset none = some (.ok res) →
      (bits.length : Int) ≤ offset + res.bytesRead) := by
  constructor
  · intro fuel bits offset k res h
    unfold Decode.Any at h
    rcases hloop : Decode.AnyLoop fuel bits .READY offset [] [] (some k)
        with _ | r
    · rw [hloop] at h
      exact Option.noConfusion h
    · rw [hloop] at h
      cases r with
      | error e => exact Except.noConfusion (Option.some.inj h)
      | ok triple =>
        obtain ⟨e2, parts, warns⟩ := triple
        have hres : res =
            { parts := parts, bytesRead := e2 - offset, warnings := warns } := by
          have := Option.some.inj h
          exact (Except.ok.inj this).symm
        subst hres
        have hbound := anyLoop_parts_bound bits k fuel _ _ _ _ _ _ _ hloop
        have hexit := anyLoop_exit bits fuel _ _ _ _ _ _ _ _ hloop
        simp only [List.length_nil, Nat.max_zero, zero_le, max_eq_right] at hbound
        constructor
        · exact hbound
        · rcases hexit with hend | hpk
          · left
            simp only
            omega
          · right
            simp only [Decode.partsOk, decide_eq_false_iff_not, not_lt] at hpk
            simpa using hpk
  · intro fuel bits offset res h
    unfold Decode.Any at h
    rcases hloop : Decode.AnyLoop fuel bits .READY offset [] [] none with _ | r
    · rw [hloop] at h
      exact Option.noConfusion h
    · rw [hloop] at h
      cases r with
      | error e => exact Except.noConfusion (Option.some.inj h)
      | ok triple =>
        obtain ⟨e2, parts, warns⟩ := triple
        have hres : res =
            { parts := parts, bytesRead := e2 - offset, warnings := warns } := by
          have := Option.some.inj h
          exact (Except.ok.inj this).symm
        subst hres
        have hexit := anyLoop_exit bits fuel _ _ _ _ _ _ _ _ hloop
        rcases hexit with hend | hpk
        · simp only
          omega
        · exact absurd hpk (by simp [Decode.partsOk])

/-- Witness for `decode_stops_at_maxParts`: decoding `boundBuf` (two `i`
entries) with `maxParts = 1` yields one value and stops. -/
theorem decode_stops_at_maxParts_witness :
    ([Value.IntegerMP 1] : List Value).length ≤ (1 : Int).toNat ∧
      ((boundBuf.length : Int) ≤ 0 + 5 ∨
        (1 : Int) ≤ (([Value.IntegerMP 1] : List Value).length : Int)) :=
  decode_stops_at_maxParts.1 20 boundBuf 0 1
    { parts := [Value.IntegerMP 1], bytesRead := 5, warnings := [] } rfl

end Mma

namespace Mma

/-- Witness for `expression_tag_decodes`: the `f` tag at offset 0 of
`exprBuf`, followed through to the fully evaluated result. -/
theorem expression_tag_decodes_witness :
    Decode.AnyLoop 20 exprBuf .READY 0 [] [] none =
      some (.ok (13, [Value.Expression (Value.Symbol "abc") []], [])) :=
  (expression_tag_decodes.1 18 exprBuf 0 [] [] none rfl (by decide) rfl).trans rfl

end Mma

/-! ## Claim C6: the primitive fixed-width readers -/

namespace Mma

theorem getD_lt_of_validBuf {bits : Buffer} (hv : validBuf bits) (o : Nat) :
    bits.getD o 0 < 256 := by
  rcases Nat.lt_or_ge o bits.length with h | h
  · rw [List.getD_eq_getElem _ _ h]
    exact hv _ (List.getElem_mem h)
  · rw [List.getD_eq_default _ _ h]
    omega

theorem byteLE_lt {bits : Buffer} (hv : validBuf bits) :
    ∀ (k : Nat) (o : Nat), byteLE bits o k < 256 ^ k := by
  intro k
  induction k with
  | zero => intro o; simp [byteLE]
  | succ k ih =>
    intro o
    have h1 := getD_lt_of_validBuf hv o
    have h2 := ih (o + 1)
    simp only [byteLE]
    calc bits.getD o 0 + 256 * byteLE bits (o + 1) k
        < 256 + 256 * byteLE bits (o + 1) k := by omega
      _ ≤ 256 + 256 * (256 ^ k - 1) := by
          have : byteLE bits (o + 1) k ≤ 256 ^ k - 1 := by omega
          omega
      _ ≤ 256 ^ (k + 1) := by
          rw [pow_succ]
          have h3 : 1 ≤ 256 ^ k := Nat.one_le_pow _ _ (by omega)
          omega
  
/-- C6.  `Decode.Int32` and `Decode.Float64` return `0` whenever the read
would run past the buffer (or start before it), without failing; for
in-range offsets on a byte buffer, `Int32` is the little-endian signed
32-bit value (congruent to the unsigned 4-byte value mod `2^32` and lying
in the signed range) and `Float64` is the 8-byte little-endian bit
pattern of the IEEE-754 double at that offset. -/
theorem primitive_reads_contract :
    ∀ (bits : Buffer) (offset : Int),
      ((offset < 0 ∨ (bits.length : Int) < offset + 4) →
        Decode.Int32 bits offset = 0) ∧
      ((offset < 0 ∨ (bits.length : Int) < offset + 8) →
        Decode.Float64 bits offset = 0) ∧
      (0 ≤ offset → offset + 4 ≤ (bits.length : Int) → validBuf bits →
        ((Decode.Int32 bits offset).emod 4294967296 =
            ((byteLE bits offset.toNat 4 : Int)).emod 4294967296 ∧
          -2147483648 ≤ Decode.Int32 bits offset ∧
          Decode.Int32 bits offset < 2147483648)) ∧
      (0 ≤ offset → offset + 8 ≤ (bits.length : Int) →
        Decode.Float64 bits offset = byteLE bits offset.toNat 8) := by
  intro bits offset
  refine ⟨?_, ?_, ?_, ?_⟩
  · intro h
    unfold Decode.Int32
    rw [if_neg (by omega)]
  · intro h
    unfold Decode.Float64
    rw [if_neg (by omega)]
  · intro h1 h2 hv
    have hu : byteLE bits offset.toNat 4 < 4294967296 := by
      have := byteLE_lt hv 4 offset.toNat
      norm_num at this
      exact this
    simp only [Decode.Int32]
    rw [if_pos ⟨h1, h2⟩]
    by_cases hc : byteLE bits offset.toNat 4 < 2147483648
    · rw [if_pos hc]
      refine ⟨rfl, by omega, by omega⟩
    · rw [if_neg hc]
      refine ⟨Int.emod_sub_cancel _ _, by omega, by omega⟩
  · intro h1 h2
    unfold Decode.Float64
    rw [if_pos ⟨h1, h2⟩]

/-- Witness for `primitive_reads_contract` on `bytesBuf`: one
out-of-range read of each kind and one in-range read of each kind. -/
theorem primitive_reads_contract_witness :
    Decode.Int32 bytesBuf (-1) = 0 ∧ Decode.Float64 bytesBuf 1 = 0 ∧
      ((Decode.Int32 bytesBuf 0).emod 4294967296 =
          ((byteLE bytesBuf 0 4 : Int)).emod 4294967296 ∧
        -2147483648 ≤ Decode.Int32 bytesBuf 0 ∧
        Decode.Int32 bytesBuf 0 < 2147483648) ∧
      Decode.Float64 bytesBuf 0 = byteLE bytesBuf 0 8 :=
  ⟨(primitive_reads_contract bytesBuf (-1)).1 (by decide),
   (primitive_reads_contract bytesBuf 1).2.1 (by decide),
   (primitive_reads_contract bytesBuf 0).2.2.1 (by decide) (by decide)
     (by unfold validBuf; decide),
   (primitive_reads_contract bytesBuf 0).2.2.2 (by decide) (by decide)⟩

end Mma

/-! ## Claim C7: the Decompress preprocessor -/

namespace Mma

theorem deleteCharAt_length {s : List Char} {i : Nat} (h : i < s.length) :
    (Util.DeleteCharAt s i).length = s.length - 1 := by
  simp [Util.DeleteCharAt]
  omega

/-- The clean-up loop removes exactly the offending characters: each pass
either keeps a clean character and advances, or deletes an offending one
and re-examines the same index. -/
theorem stripLoop_spec :
    ∀ (n : Nat) (s : List Char) (i : Nat), s.length - i ≤ n →
      stripLoop s i = s.take i ++ (s.drop i).filter (fun c => !isStripped c) := by
  intro n
  induction n with
  | zero =>
    intro s i hn
    have hi : s.length ≤ i := by omega
    rw [stripLoop, dif_neg (by omega)]
    rw [List.take_of_length_le hi, List.drop_of_length_le hi]
    simp
  | succ n ih =>
    intro s i hn
    by_cases hi : i < s.length
    · have hdropi : s.drop i = s.get ⟨i, hi⟩ :: s.drop (i + 1) :=
        (List.getElem_cons_drop s i hi).symm
      rw [stripLoop, dif_pos hi]
      by_cases hc : isStripped (s.get ⟨i, hi⟩)
      · rw [if_pos hc]
        rw [ih (Util.DeleteCharAt s i) i (by rw [deleteCharAt_length hi]; omega)]
        have hlen : i ≤ (s.take i).length := by
          simp
          omega
        have htake : (Util.DeleteCharAt s i).take i = s.take i := by
          unfold Util.DeleteCharAt
          rw [List.take_append_of_le_length hlen, List.take_take]
          simp
        have hdrop : (Util.DeleteCharAt s i).drop i = s.drop (i + 1) := by
          unfold Util.DeleteCharAt
          rw [List.drop_append_of_le_length hlen,
            List.drop_of_length_le (by simp)]
          simp
        rw [htake, hdrop, hdropi, List.filter_cons]
        have hc2 : isStripped s[i] = true := hc
        simp [hc2]
      · rw [if_neg hc]
        rw [ih s (i + 1) (by omega)]
        have htake1 : s.take (i + 1) = s.take i ++ [s.get ⟨i, hi⟩] := by
          have h2 := List.take_concat_get s i hi
          simp only [List.concat_eq_append] at h2
          exact h2.symm
        simp only [Bool.not_eq_true] at hc
        rw [htake1, hdropi, List.filter_cons]
        rw [if_pos (by simp; exact hc)]
        rw [List.append_assoc]
        simp
    · rw [stripLoop, dif_neg hi]
      have hle : s.length ≤ i := by omega
      rw [List.take_of_length_le hle, List.drop_of_length_le hle]
      simp

/-- The whole clean-up scan equals filtering out every backslash, newline
and double quote, including runs of them. -/
theorem stripLoop_eq_filter (s : List Char) :
    stripLoop s 0 = s.filter (fun c => !isStripped c) := by
  rw [stripLoop_spec s.length s 0 (by omega)]
  simp

/-- C7.  `Decompress` first deletes every backslash, newline and double
quote (re-scanning in place, so consecutive offenders all go), then trims
whitespace and drops the first two characters before base64-decoding and
inflating; after inflation a mismatch of the first 4 bytes against
`"!boR"` only logs a warning, and the inflated buffer with its first 4
bytes stripped is returned in all cases. -/
theorem decompress_spec :
    ∀ (atobDecode : List Char → Option Buffer) (inflate : Buffer → Option Buffer)
      (input : List Char) (compressed bits : Buffer),
      atobDecode ((jsTrim (input.filter (fun c => !isStripped c))).drop 2) =
        some compressed →
      inflate compressed = some bits →
      Decompress atobDecode inflate input =
        .ok (bits.drop 4,
          if String.mk ((bits.take 4).map Char.ofNat) ≠ "!boR" then
            ["Decompress: unknown header string " ++
              String.mk ((bits.take 4).map Char.ofNat) ++ " (expected !boR)"]
          else []) := by
  intro atobDecode inflate input compressed bits hatob hinf
  simp only [Decompress, stripLoop_eq_filter, hatob, hinf]

/-- Witness for `decompress_spec`: concrete stub codecs, an input with a
quote and backslash to strip, and an inflated buffer with a wrong header. -/
theorem decompress_spec_witness :
    Decompress (fun _ => some [9, 9, 9]) (fun _ => some [33, 98, 111, 82, 7])
        ['"', 'x', '\\', 'y'] = .ok ([7], []) :=
  (decompress_spec (fun _ => some [9, 9, 9]) (fun _ => some [33, 98, 111, 82, 7])
    ['"', 'x', '\\', 'y'] [9, 9, 9] [33, 98, 111, 82, 7] rfl rfl).trans (by rfl)

end Mma

/-! ## Claim C8: every Expression has a Symbol head -/

namespace Mma

theorem headsOkList_append (a b : List Value) :
    headsOkList (a ++ b) = (headsOkList a && headsOkList b) := by
  induction a with
  | nil => simp [headsOkList]
  | cons v vs ih =>
    simp only [List.cons_append, headsOkList, List.append_eq, ih, Bool.and_assoc]

theorem readFloats_headsOk (bits : Buffer) :
    ∀ (k : Nat) (offset : Int),
      headsOkList (Decode.readFloats bits offset k) = true := by
  intro k
  induction k with
  | zero => intro offset; rfl
  | succ k ih =>
    intro offset
    simp only [Decode.readFloats, headsOkList, ih, Bool.and_true]
    rfl

theorem matrix_headsOk (bits : Buffer) (sizes : List Int) :
    ∀ (l : Nat) (offset : Int),
      headsOk (Decode.ParseMatrixAtLevel bits sizes l offset).1 = true := by
  intro l
  induction l with
  | zero =>
    intro offset
    simp only [Decode.ParseMatrixAtLevel, headsOk, Value.isSymbol, Bool.true_and]
    exact readFloats_headsOk bits _ offset
  | succ l ih =>
    intro offset
    have hrow : ∀ (cnt : Nat) (off : Int),
        headsOkList ((Decode.matrixRow
          (fun o2 => Decode.ParseMatrixAtLevel bits sizes l o2) off cnt)).1 = true := by
      intro cnt
      induction cnt with
      | zero => intro off; rfl
      | succ cnt ihc =>
        intro off
        simp only [Decode.matrixRow, headsOkList, ih, ihc, Bool.and_self]
    simp only [Decode.ParseMatrixAtLevel, headsOk, Value.isSymbol, Bool.true_and]
    exact hrow _ _

/-- Inversion of a successful `mkExpression`: the head argument existed
and was a `Symbol`, and the result wraps exactly it and the parts. -/
theorem mkExpression_ok {head : Option Value} {parts : List Value} {v : Value}
    (h : mkExpression head parts = .ok v) :
    ∃ name, head = some (Value.Symbol name) ∧
      v = Value.Expression (Value.Symbol name) parts := by
  cases head with
  | none => exact Except.noConfusion h
  | some hd =>
    cases hd with
    | IntegerMP n => exact Except.noConfusion h
    | IntegerAP s => exact Except.noConfusion h
    | RealMP n => exact Except.noConfusion h
    | RealAP s => exact Except.noConfusion h
    | Str s => exact Except.noConfusion h
    | Expression hh pp => exact Except.noConfusion h
    | Symbol name => exact ⟨name, rfl, (Except.ok.inj h).symm⟩

/-- All values the loop appends satisfy `headsOk`, so the accumulated
list keeps satisfying it. -/
theorem anyLoop_headsOk (bits : Buffer) :
    ∀ (fuel : Nat) (st : Decode.DState) (offset : Int) (parts : List Value)
      (warnings : List String) (maxParts : Option Int) (endOffset : Int)
      (parts' : List Value) (warnings' : List String),
      Decode.AnyLoop fuel bits st offset parts warnings maxParts =
        some (.ok (endOffset, parts', warnings')) →
      headsOkList parts = true → headsOkList parts' = true := by
  intro fuel
  induction fuel with
  | zero =>
    intro st offset parts warnings maxParts endOffset parts' warnings' h hp
    exact Option.noConfusion h
  | succ fuel ih =>
    intro st offset parts warnings maxParts endOffset parts' warnings' h hp
    rw [anyLoop_succ_eq] at h
    by_cases hg : offset < (bits.length : Int) ∧
        Decode.partsOk parts.length maxParts = true
    · rw [if_pos hg] at h
      have hpush : ∀ v : Value, headsOk v = true →
          headsOkList (parts ++ [v]) = true := by
        intro v hv
        rw [headsOkList_append, hp]
        simp [headsOkList, hv]
      cases st with
      | READY =>
        rcases htag : Decode.tagState (jsIndex bits offset) with _ | st2 <;>
          simp only [htag] at h
        · exact ih _ _ _ _ _ _ _ _ h hp
        · exact ih _ _ _ _ _ _ _ _ h hp
      | INTEGER_MP => exact ih _ _ _ _ _ _ _ _ h (hpush _ rfl)
      | INTEGER_AP =>
        simp only [mkIntegerAP_ok] at h
        exact ih _ _ _ _ _ _ _ _ h (hpush _ rfl)
      | REAL_MP => exact ih _ _ _ _ _ _ _ _ h (hpush _ rfl)
      | REAL_AP =>
        simp only [mkRealAP_ok] at h
        exact ih _ _ _ _ _ _ _ _ h (hpush _ rfl)
      | SYMBOL => exact ih _ _ _ _ _ _ _ _ h (hpush _ rfl)
      | STRING => exact ih _ _ _ _ _ _ _ _ h (hpush _ rfl)
      | EXPRESSION =>
        rcases hsub : Decode.AnyLoop fuel bits .READY (offset + 4) [] []
            (some (Decode.Int32 bits offset + 1)) with _ | r
        · simp only [hsub] at h
          exact Option.noConfusion h
        · cases r with
          | error e =>
            simp only [hsub] at h
            exact Except.noConfusion (Option.some.inj h)
          | ok triple =>
            obtain ⟨e2, sp, sw⟩ := triple
            simp only [hsub] at h
            have hsp : headsOkList sp = true := ih _ _ _ _ _ _ _ _ hsub rfl
            rcases hmk : mkExpression sp.head? (sp.drop 1) with e | v
            · simp only [hmk] at h
              exact Except.noConfusion (Option.some.inj h)
            · simp only [hmk] at h
              obtain ⟨name, hname, hv⟩ := mkExpression_ok hmk
              have hvok : headsOk v = true := by
                cases sp with
                | nil => exact Option.noConfusion hname
                | cons c tl =>
                  have hc : c = Value.Symbol name := Option.some.inj hname
                  subst hc
                  simp only [headsOkList, Bool.and_eq_true] at hsp
                  rw [hv]
                  simp [headsOk, Value.isSymbol, List.drop, hsp.2]
              exact ih _ _ _ _ _ _ _ _ h (hpush _ hvok)
      | REAL_MATRIX =>
        exact ih _ _ _ _ _ _ _ _ h (hpush _ (matrix_headsOk bits _ _ _))
    · rw [if_neg hg] at h
      simp only [Option.some.injEq, Except.ok.injEq, Prod.mk.injEq] at h
      obtain ⟨h1, h2, h3⟩ := h
      rw [← h2]
      exact hp

/-- C8.  `Expression` construction aborts the decode unless the head is a
`Symbol`: a successful `mkExpression` always received and wrapped a
`Symbol` head, a non-`Symbol` head is a fatal error, and consequently
every `Expression` node in any decoder output has a `Symbol` head. -/
theorem expression_head_always_symbol :
    (∀ (head : Option Value) (parts : List Value),
      (∀ v, mkExpression head parts = .ok v →
        ∃ name, head = some (Value.Symbol name) ∧
          v = Value.Expression (Value.Symbol name) parts) ∧
      ((∀ name, head ≠ some (Value.Symbol name)) →
        mkExpression head parts = .error "Expression: head must be an Mma.Symbol")) ∧
    (∀ (fuel : Nat) (bits : Buffer) (offset : Int) (maxParts : Option Int)
        (res : Decode.AnyResult),
      Decode.Any fuel bits offset maxParts = some (.ok res) →
      headsOkList res.parts = true) := by
  constructor
  · intro head parts
    constructor
    · intro v h
      exact mkExpression_ok h
    · intro hne
      cases head with
      | none => rfl
      | some hd =>
        cases hd with
        | IntegerMP n => rfl
        | IntegerAP s => rfl
        | RealMP n => rfl
        | RealAP s => rfl
        | Str s => rfl
        | Expression hh pp => rfl
        | Symbol name => exact absurd rfl (hne name)
  · intro fuel bits offset maxParts res h
    unfold Decode.Any at h
    rcases hloop : Decode.AnyLoop fuel bits .READY offset [] [] maxParts with _ | r
    · rw [hloop] at h
      exact Option.noConfusion h
    · rw [hloop] at h
      cases r with
      | error e => exact Except.noConfusion (Option.some.inj h)
      | ok triple =>
        obtain ⟨e2, parts, warns⟩ := triple
        have hres : res =
            { parts := parts, bytesRead := e2 - offset, warnings := warns } := by
          have := Option.some.inj h
          exact (Except.ok.inj this).symm
        subst hres
        exact anyLoop_headsOk bits fuel _ _ _ _ _ _ _ _ hloop rfl

/-- Witness for `expression_head_always_symbol`: a non-`Symbol` head is
rejected, and the decode of `headBuf` satisfies the head invariant. -/
theorem expression_head_always_symbol_witness :
    mkExpression (some (Value.IntegerMP 3)) [] =
        .error "Expression: head must be an Mma.Symbol" ∧
      headsOkList [Value.Expression (Value.Symbol "abc") []] = true :=
  ⟨(expression_head_always_symbol.1 (some (Value.IntegerMP 3)) []).2
      (fun _ h => Value.noConfusion (Option.some.inj h)),
   expression_head_always_symbol.2 20 headBuf 0 none
      { parts := [Value.Expression (Value.Symbol "abc") []],
        bytesRead := 13, warnings := [] } rfl⟩

end Mma

/-! ## Claim C3: the matrix decoder -/

namespace Mma

theorem readFloats_length (bits : Buffer) :
    ∀ (k : Nat) (offset : Int), (Decode.readFloats bits offset k).length = k := by
  intro k
  induction k with
  | zero => intro offset; rfl
  | succ k ih =>
    intro offset
    simp only [Decode.readFloats, List.length_cons, ih]

theorem readFloats_shape (bits : Buffer) :
    ∀ (k : Nat) (offset : Int) (x : Value),
      x ∈ Decode.readFloats bits offset k → ∃ b, x = Value.RealMP b := by
  intro k
  induction k with
  | zero =>
    intro offset x hx
    exact absurd hx (List.not_mem_nil x)
  | succ k ih =>
    intro offset x hx
    simp only [Decode.readFloats, List.mem_cons] at hx
    rcases hx with hx | hx
    · exact ⟨_, hx⟩
    · exact ih _ _ hx

theorem loopCount_coe (sizes : List Int) (j : Nat) (hj : j < sizes.length) :
    Decode.loopCount sizes (j : Int) = (sizes.get ⟨j, hj⟩).toNat := by
  simp [Decode.loopCount, Decode.jsIndexInt, hj]

/-- Shape and byte count of `ParseMatrixAtLevel` at any level below the
dimension count: the value mirrors the last `l + 1` dimension sizes
(clamped to `Nat`), and the bytes read are 8 per leaf float. -/
theorem parseMatrix_spec (bits : Buffer) (sizes : List Int) :
    ∀ (l : Nat), l < sizes.length → ∀ (offset : Int),
      matrixShape ((sizes.map Int.toNat).drop (sizes.length - 1 - l))
        (Decode.ParseMatrixAtLevel bits sizes l offset).1 ∧
      (Decode.ParseMatrixAtLevel bits sizes l offset).2 =
        8 * ((((sizes.map Int.toNat).drop (sizes.length - 1 - l)).prod : Nat) : Int) := by
  intro l
  induction l with
  | zero =>
    intro hl offset
    have hlen : sizes.length - 1 < sizes.length := by omega
    have hcast : (sizes.length : Int) - 1 = ((sizes.length - 1 : Nat) : Int) := by
      omega
    have hcnt : Decode.loopCount sizes ((sizes.length : Int) - 1) =
        (sizes.get ⟨sizes.length - 1, hlen⟩).toNat := by
      rw [hcast, loopCount_coe sizes (sizes.length - 1) hlen]
    have hdrop : (sizes.map Int.toNat).drop (sizes.length - 1 - 0) =
        [(sizes.get ⟨sizes.length - 1, hlen⟩).toNat] := by
      rw [Nat.sub_zero]
      rw [List.drop_eq_getElem_cons (by simp; omega)]
      rw [show sizes.length - 1 + 1 = (sizes.map Int.toNat).length by simp; omega]
      rw [List.drop_length]
      simp
    simp only [Decode.ParseMatrixAtLevel, hcnt, hdrop]
    constructor
    · refine ⟨_, rfl, readFloats_length bits _ offset, ?_⟩
      intro x hx
      exact readFloats_shape bits _ offset x hx
    · simp
  | succ l ih =>
    intro hl offset
    have hllt : l < sizes.length := by omega
    have hj : sizes.length - 1 - (l + 1) < sizes.length := by omega
    have hcast : (sizes.length : Int) - ((l : Int) + 1) - 1 =
        ((sizes.length - 1 - (l + 1) : Nat) : Int) := by
      omega
    have hcnt : Decode.loopCount sizes ((sizes.length : Int) - ((l : Int) + 1) - 1) =
        (sizes.get ⟨sizes.length - 1 - (l + 1), hj⟩).toNat := by
      rw [hcast, loopCount_coe sizes _ hj]
    have hj1 : sizes.length - 1 - (l + 1) + 1 = sizes.length - 1 - l := by omega
    have hdrop : (sizes.map Int.toNat).drop (sizes.length - 1 - (l + 1)) =
        (sizes.get ⟨sizes.length - 1 - (l + 1), hj⟩).toNat ::
          (sizes.map Int.toNat).drop (sizes.length - 1 - l) := by
      rw [List.drop_eq_getElem_cons (by simp; omega), hj1]
      simp
    have hrow : ∀ (cnt : Nat) (off : Int),
        (Decode.matrixRow (fun o2 => Decode.ParseMatrixAtLevel bits sizes l o2)
            off cnt).1.length = cnt ∧
        (∀ x ∈ (Decode.matrixRow
            (fun o2 => Decode.ParseMatrixAtLevel bits sizes l o2) off cnt).1,
          matrixShape ((sizes.map Int.toNat).drop (sizes.length - 1 - l)) x) ∧
        (Decode.matrixRow (fun o2 => Decode.ParseMatrixAtLevel bits sizes l o2)
            off cnt).2 =
          (cnt : Int) *
            (8 * ((((sizes.map Int.toNat).drop (sizes.length - 1 - l)).prod : Nat) : Int)) := by
      intro cnt
      induction cnt with
      | zero =>
        intro off
        refine ⟨rfl, ?_, by simp [Decode.matrixRow]⟩
        intro x hx
        exact absurd hx (List.not_mem_nil x)
      | succ cnt ihc =>
        intro off
        obtain ⟨ihs, ihb⟩ := ih hllt off
        obtain ⟨hlen2, hshape2, hbytes2⟩ :=
          ihc (off + (Decode.ParseMatrixAtLevel bits sizes l off).2)
        refine ⟨?_, ?_, ?_⟩
        · simp only [Decode.matrixRow, List.length_cons, hlen2]
        · intro x hx
          simp only [Decode.matrixRow, List.mem_cons] at hx
          rcases hx with hx | hx
          · rw [hx]
            exact ihs
          · exact hshape2 x hx
        · simp only [Decode.matrixRow]
          rw [hbytes2, ihb]
          push_cast
          ring
    obtain ⟨hlenr, hshaper, hbytesr⟩ :=
      hrow (Decode.loopCount sizes ((sizes.length : Int) - ((l : Int) + 1) - 1)) offset
    simp only [Decode.ParseMatrixAtLevel]
    constructor
    · rw [hdrop]
      refine ⟨_, rfl, ?_, ?_⟩
      · rw [hlenr, hcnt]
      · exact hshaper
    · rw [hbytesr, hcnt, hdrop, List.prod_cons]
      push_cast
      ring

/-- C3.  For a matrix payload with at least one dimension, the decoder
returns a nesting of `Expression(Symbol "List", …)` values whose shape
mirrors the dimension sizes exactly — `sizes[0]` outermost lists down to
innermost lists of `sizes[n-1]` `RealMP` leaves — consuming 8 bytes per
float; in particular the `e` entry of `matrixBuf` (`n = 2`,
`sizes = [2, 3]`, floats `1.0 … 6.0`) decodes to
`List[List[1, 2, 3], List[4, 5, 6]]` (as IEEE-754 bit patterns). -/
theorem matrix_decode_shape :
    (∀ (bits : Buffer) (sizes : List Int) (offset : Int),
      sizes ≠ [] →
      matrixShape (sizes.map Int.toNat)
        (Decode.ParseMatrixAtLevel bits sizes (sizes.length - 1) offset).1 ∧
      (Decode.ParseMatrixAtLevel bits sizes (sizes.length - 1) offset).2 =
        8 * (((sizes.map Int.toNat).prod : Nat) : Int)) ∧
    Decode.Any 20 matrixBuf 0 none =
      some (.ok
        { parts := [Value.Expression (Value.Symbol "List")
            [Value.Expression (Value.Symbol "List")
              [Value.RealMP 0x3FF0000000000000, Value.RealMP 0x4000000000000000,
                Value.RealMP 0x4008000000000000],
              Value.Expression (Value.Symbol "List")
              [Value.RealMP 0x4010000000000000, Value.RealMP 0x4014000000000000,
                Value.RealMP 0x4018000000000000]]],
          bytesRead := 61, warnings := [] }) := by
  constructor
  · intro bits sizes offset hne
    have hl : sizes.length - 1 < sizes.length := by
      have : sizes.length ≠ 0 := fun h => hne (List.length_eq_zero.mp h)
      omega
    have hspec := parseMatrix_spec bits sizes (sizes.length - 1) hl offset
    rwa [Nat.sub_self, List.drop_zero] at hspec
  · rfl

/-- Witness for `matrix_decode_shape`: the `sizes = [2, 3]` payload of
`matrixBuf`, whose matrix data starts at offset 13. -/
theorem matrix_decode_shape_witness :
    matrixShape [2, 3] (Decode.ParseMatrixAtLevel matrixBuf [2, 3] 1 13).1 ∧
      (Decode.ParseMatrixAtLevel matrixBuf [2, 3] 1 13).2 = 48 :=
  matrix_decode_shape.1 matrixBuf [2, 3] 13 (by decide)

end Mma
